import Mathlib

/-!
Verification development for the `talk-like-an-X` text transformation
library (`src/python/text_transformer.py` and `src/python/filter_factory.py`).

Strings are modelled as `List Char` (ASCII-faithful character predicates).
The regular expressions compiled by the library fall into four fixed shapes:

* `Substitution`: `\b`? + literal words joined by `\s+` + `\b`?, with
  `re.IGNORECASE` exactly when `preserve_case` is set;
* `CharacterSubstitution`: a plain escaped literal, same flag handling;
* `SuffixReplacer.add_rule`: `([a-zA-Z]{m,})` + literal suffix + `\b`,
  always `re.IGNORECASE`, replacement `group(1) + r`;
* `PrefixReplacer.add_rule`: `\b` + literal + `([a-zA-Z]+)`, always
  `re.IGNORECASE`, replacement `r + group(1)`.

Those shapes are embedded directly (greedy quantifiers with backtracking for
the bounded stem, word-boundary `\b` as the usual xor of word-character-ness
of the two neighbouring positions), together with `re.sub`'s left-to-right
non-overlapping scan.  The scanner uses structural fuel (`length + 1`
suffices, since every step consumes at least one character) so that all
definitions reduce by `rfl`/`decide`.
-/

abbrev Str := List Char

/-- `\w` of Python `re` restricted to ASCII: letters, digits, underscore. -/
def isWordChar (c : Char) : Bool := c.isAlphanum || c == '_'

/-- Python `\s` (ASCII range): space, tab, newline, carriage return, vertical
tab, form feed. -/
def pyWS (c : Char) : Bool :=
  c == ' ' || c == '\t' || c == '\n' || c == '\r' || c == '\x0b' || c == '\x0c'

/-- ASCII `[a-zA-Z]`, the character class used by the affix patterns. -/
def alphaB (c : Char) : Bool := c.isAlpha

/-- Word-character-ness of an optional character; positions outside the text
count as non-word. -/
def optWord : Option Char → Bool
  | none => false
  | some c => isWordChar c

/-- `\b` holds between two (optional) characters iff exactly one side is a
word character. -/
def isBdry (a b : Option Char) : Bool := optWord a != optWord b

/-- Character comparison: case-insensitive (`re.IGNORECASE`) when `ci`. -/
def chEq (ci : Bool) (a b : Char) : Bool :=
  if ci then a.toLower == b.toLower else a == b

/-- Match the literal `pat` at the head of `t`; on success return the matched
span (characters taken from `t`, case as found) and the remaining text. -/
def stripLit (ci : Bool) : Str → Str → Option (Str × Str)
  | [], t => some ([], t)
  | _ :: _, [] => none
  | p :: ps, c :: cs =>
    if chEq ci p c then
      match stripLit ci ps cs with
      | some pr => some (c :: pr.1, pr.2)
      | none => none
    else none

/-- Python `str.split()` (no argument): split on runs of whitespace, dropping
empty pieces. -/
def splitWSAux : Str → Str → List Str
  | [], acc => if acc.isEmpty then [] else [acc.reverse]
  | c :: cs, acc =>
    if pyWS c then
      if acc.isEmpty then splitWSAux cs [] else acc.reverse :: splitWSAux cs []
    else splitWSAux cs (c :: acc)

def pySplitWS (t : Str) : List Str := splitWSAux t []

/-- The capitalization adapter `same_cap` of `text_transformer.py`.
Python `str.isupper()` on ASCII: at least one cased (alphabetic) character and
every cased character upper-case. -/
def pyIsUpper (s : Str) : Bool :=
  s.any (fun c => c.isAlpha) && s.all (fun c => !c.isAlpha || c.isUpper)

def same_cap (original replacement : Str) : Str :=
  match original, replacement with
  | [], r => r
  | _ :: _, [] => []
  | o0 :: os, r0 :: rs =>
    if pyIsUpper (o0 :: os) then (r0 :: rs).map Char.toUpper
    else if o0.isUpper then Char.toUpper r0 :: rs
    else Char.toLower r0 :: rs

/-- The four compiled-pattern shapes produced by the library (see module
docstring).  `words ci bdr ws` is the `Substitution`/`CharacterSubstitution`
shape: literal words joined by `\s+`, wrapped in `\b` when `bdr`. -/
inductive Matcher where
  | words (ci bdr : Bool) (ws : List Str)
  | sufM (minStem : Nat) (s : Str)
  | preM (p : Str)
deriving DecidableEq, Repr

/-- The replacer closures passed to `pattern.sub`. -/
inductive Repl where
  | sameCapR (r : Str)
  | litR (r : Str)
  | stemCat (r : Str)
  | catStem (r : Str)
deriving DecidableEq, Repr

/-- A compiled rule `(pattern, replacer)` of `RegexTransformer.rules`. -/
structure CompRule where
  m : Matcher
  r : Repl
deriving DecidableEq, Repr

/-- Last character of `prev`-context extended by a matched span: the character
immediately left of the position after the span. -/
def lastC (prev : Option Char) (m : Str) : Option Char :=
  match m.getLast? with
  | some c => some c
  | none => prev

/-- Match the 2nd..nth words of a phrase: each preceded by `\s+` (greedy run
of whitespace; the following word never starts with whitespace, so the
maximal run is the regex behaviour). -/
def matchTail (ci : Bool) : List Str → Str → Option (Str × Str)
  | [], t => some ([], t)
  | w :: ws, t =>
    let sp := t.takeWhile pyWS
    let rest := t.dropWhile pyWS
    if sp.isEmpty then none
    else
      match stripLit ci w rest with
      | some pr =>
        match matchTail ci ws pr.2 with
        | some pr2 => some (sp ++ pr.1 ++ pr2.1, pr2.2)
        | none => none
      | none => none

/-- Match a whole phrase (words joined by `\s+`) at the head of `t`. -/
def matchWords (ci : Bool) : List Str → Str → Option (Str × Str)
  | [], t => some ([], t)
  | w :: ws, t =>
    match stripLit ci w t with
    | some pr =>
      match matchTail ci ws pr.2 with
      | some pr2 => some (pr.1 ++ pr2.1, pr2.2)
      | none => none
    | none => none

/-- Attempt of the `words` shape at the current position (given the previous
character for `\b`). -/
def matchWordsAt (ci bdr : Bool) (ws : List Str) (prev : Option Char) (t : Str) :
    Option (Str × Str) :=
  if bdr && !isBdry prev t.head? then none
  else
    match matchWords ci ws t with
    | some pr =>
      if bdr && !isBdry (lastC prev pr.1) pr.2.head? then none
      else some pr
    | none => none

/-- One backtracking step of `([a-zA-Z]{m,})suffix\b` with stem length `k`:
on success returns (matched span, captured stem, rest). -/
def sufCheck (s : Str) (prev : Option Char) (t : Str) (k : Nat) :
    Option (Str × Str × Str) :=
  let stem := t.take k
  match stripLit true s (t.drop k) with
  | some pr =>
    if isBdry (lastC prev (stem ++ pr.1)) pr.2.head? then
      some (stem ++ pr.1, stem, pr.2)
    else none
  | none => none

/-- Greedy backtracking over stem lengths `k, k-1, …, minStem`. -/
def sufTryK (minStem : Nat) (s : Str) (prev : Option Char) (t : Str) :
    Nat → Option (Str × Str × Str)
  | 0 => if minStem = 0 then sufCheck s prev t 0 else none
  | k + 1 =>
    if k + 1 < minStem then none
    else
      match sufCheck s prev t (k + 1) with
      | some res => some res
      | none => sufTryK minStem s prev t k

/-- Attempt of the suffix shape at the current position: the stem cannot
extend past the maximal alphabetic run. -/
def sufMatchAt (minStem : Nat) (s : Str) (prev : Option Char) (t : Str) :
    Option (Str × Str × Str) :=
  sufTryK minStem s prev t (t.takeWhile alphaB).length

/-- Attempt of `\b prefix ([a-zA-Z]+)` at the current position. -/
def preMatchAt (p : Str) (prev : Option Char) (t : Str) :
    Option (Str × Str × Str) :=
  if !isBdry prev t.head? then none
  else
    match stripLit true p t with
    | some pr =>
      let g := pr.2.takeWhile alphaB
      if g.isEmpty then none
      else some (pr.1 ++ g, g, pr.2.dropWhile alphaB)
    | none => none

/-- Match attempt of any shape; returns (matched span, captured group, rest). -/
def matchAt : Matcher → Option Char → Str → Option (Str × Str × Str)
  | .words ci bdr ws, prev, t =>
    match matchWordsAt ci bdr ws prev t with
    | some pr => some (pr.1, [], pr.2)
    | none => none
  | .sufM m s, prev, t => sufMatchAt m s prev t
  | .preM p, prev, t => preMatchAt p prev t

/-- Apply a replacer to (matched span, captured group). -/
def applyRep : Repl → Str → Str → Str
  | .sameCapR r, m, _ => same_cap m r
  | .litR r, _, _ => r
  | .stemCat r, _, g => g ++ r
  | .catStem r, _, g => r ++ g

/-- `pattern.sub(replacer, text)`: left-to-right scan, non-overlapping
matches, scanning resumes after each replacement (the replacement text itself
is never re-scanned by the same rule).  Structural fuel; `length + 1` is
always enough because every step consumes at least one input character. -/
def subScanF (mt : Matcher) (rep : Repl) : Nat → Option Char → Str → Str
  | 0, _, t => t
  | _ + 1, prev, [] =>
    match matchAt mt prev [] with
    | some res => applyRep rep res.1 res.2.1
    | none => []
  | fuel + 1, prev, c :: cs =>
    match matchAt mt prev (c :: cs) with
    | some res =>
      if res.1.isEmpty then
        applyRep rep res.1 res.2.1 ++ c :: subScanF mt rep fuel (some c) cs
      else
        applyRep rep res.1 res.2.1 ++ subScanF mt rep fuel (lastC prev res.1) res.2.2
    | none => c :: subScanF mt rep fuel (some c) cs

/-- One full `pattern.sub` pass of a compiled rule over a text. -/
def patSub (mt : Matcher) (rep : Repl) (t : Str) : Str :=
  subScanF mt rep (t.length + 1) none t

/-- `RegexTransformer.transform`: apply all rules in sequence, each over the
whole text produced by the previous ones. -/
def runRules (rules : List CompRule) (t : Str) : Str :=
  rules.foldl (fun acc rule => patSub rule.m rule.r acc) t

/-- Stable descending-by-key-length insertion used by
`sorted(mappings.items(), key=lambda x: len(x[0]), reverse=True)`. -/
def insDesc (x : Str × Str) : List (Str × Str) → List (Str × Str)
  | [] => [x]
  | y :: ys => if x.1.length < y.1.length then y :: insDesc x ys else x :: y :: ys

def sortDescLen (l : List (Str × Str)) : List (Str × Str) := l.foldr insDesc []

/-- `Substitution._compile_mappings` for one `(original, replacement)` pair. -/
def compileOne (word_boundary preserve_case : Bool) (kv : Str × Str) : CompRule :=
  { m := .words preserve_case word_boundary
      (if kv.1.contains ' ' then pySplitWS kv.1 else [kv.1]),
    r := if preserve_case then .sameCapR kv.2 else .litR kv.2 }

/-- The compiled rule list of a `Substitution(mappings, word_boundary,
preserve_case)` stage. -/
def Substitution (mappings : List (Str × Str)) (word_boundary preserve_case : Bool) :
    List CompRule :=
  (sortDescLen mappings).map (compileOne word_boundary preserve_case)

/-- The compiled rule list of a `CharacterSubstitution(mappings,
preserve_case)` stage: plain literals, never word-bounded, never split on
spaces. -/
def CharacterSubstitution (mappings : List (Str × Str)) (preserve_case : Bool) :
    List CompRule :=
  (sortDescLen mappings).map (fun kv =>
    { m := .words preserve_case false [kv.1],
      r := if preserve_case then .sameCapR kv.2 else .litR kv.2 })

/-- One rule added by `SuffixReplacer.add_rule(suffix, replacement, min_stem)`. -/
def sufRule (suffix replacement : Str) (min_stem : Nat) : CompRule :=
  { m := .sufM min_stem suffix, r := .stemCat replacement }

/-- One rule added by `PrefixReplacer.add_rule`. -/
def preRule (p replacement : Str) : CompRule :=
  { m := .preM p, r := .catStem replacement }

/-!  ## SentenceAugmenter  -/

/-- Python `str.split(sep)` with a non-empty separator, accumulator form;
structural fuel (`length + 1` suffices). On exhausted fuel the remaining text
is flushed, which keeps the reconstruction invariant for every fuel. -/
def splitAuxF (s0 : Char) (sr : Str) : Nat → Str → Str → List Str
  | 0, t, acc => [acc.reverse ++ t]
  | _ + 1, [], acc => [acc.reverse]
  | fuel + 1, c :: cs, acc =>
    match stripLit false (s0 :: sr) (c :: cs) with
    | some pr => acc.reverse :: splitAuxF s0 sr fuel pr.2 []
    | none => splitAuxF s0 sr fuel cs (c :: acc)

/-- Python `text.split(punct)`; the library never calls it with an empty
separator (Python would raise), that case is mapped to the whole text. -/
def pySplitStr (sep t : Str) : List Str :=
  match sep with
  | [] => [t]
  | s0 :: sr => splitAuxF s0 sr (t.length + 1) t []

/-- A `SentenceAugmenter` rule `(punctuation, additions, frequency)`. -/
structure AugRule where
  punct : Str
  additions : List Str
  freq : Nat
deriving DecidableEq, Repr

/-- `SentenceAugmenter` instance state: the rule list and the `_counters`
dictionary (association list in insertion order). -/
structure Augmenter where
  rules : List AugRule
  counters : List (Str × Nat)
deriving DecidableEq, Repr

/-- Dictionary read `self._counters.get(punct, 0)`. -/
def ctrGet (cs : List (Str × Nat)) (k : Str) : Nat := (cs.lookup k).getD 0

/-- Dictionary write `self._counters[punct] = v`. -/
def ctrSet (cs : List (Str × Nat)) (k : Str) (v : Nat) : List (Str × Nat) :=
  match cs with
  | [] => [(k, v)]
  | e :: rest => if e.1 == k then (k, v) :: rest else e :: ctrSet rest k v

/-- `SentenceAugmenter.add_rule`. -/
def addAugRule (a : Augmenter) (punct : Str) (additions : List Str) (freq : Nat) :
    Augmenter :=
  { rules := a.rules ++ [⟨punct, additions, freq⟩],
    counters := if freq > 1 then ctrSet a.counters punct 0 else a.counters }

/-- The `frequency == 1` loop of `SentenceAugmenter.transform`: every split
boundary gets the punctuation re-inserted followed by
`additions[i % len(additions)]`; an empty additions list raises
`ZeroDivisionError` (modelled as `.error ()`) at the first boundary. -/
def augAlways (punct : Str) (adds : List Str) : List Str → Nat → Except Unit Str
  | [], _ => .ok []
  | [last], _ => .ok last
  | p :: rest, i =>
    if adds.length == 0 then .error ()
    else
      match augAlways punct adds rest (i + 1) with
      | .ok tail => .ok (p ++ punct ++ adds.getD (i % adds.length) [] ++ tail)
      | .error e => .error e

/-- The `frequency > 1` loop: the persistent counter gates the addition with
`counter % freq == 0` and selects it with `counter % len(additions)`; both
modulos raise `ZeroDivisionError` in Python when their divisor is zero. -/
def augEvery (punct : Str) (adds : List Str) (freq : Nat) :
    List Str → Nat → Except Unit (Str × Nat)
  | [], c => .ok ([], c)
  | [last], c => .ok (last, c)
  | p :: rest, c =>
    if freq == 0 then .error ()
    else if c % freq == 0 then
      if adds.length == 0 then .error ()
      else
        match augEvery punct adds freq rest (c + 1) with
        | .ok pr => .ok (p ++ punct ++ adds.getD (c % adds.length) [] ++ pr.1, pr.2)
        | .error e => .error e
    else
      match augEvery punct adds freq rest (c + 1) with
      | .ok pr => .ok (p ++ punct ++ pr.1, pr.2)
      | .error e => .error e

/-- One rule of `SentenceAugmenter.transform`: split, rebuild, and (for
`freq ≠ 1`) write the advanced counter back into `_counters`. -/
def augApplyRule (r : AugRule) (cs : List (Str × Nat)) (text : Str) :
    Except Unit (Str × List (Str × Nat)) :=
  let parts := pySplitStr r.punct text
  if r.freq == 1 then
    match augAlways r.punct r.additions parts 0 with
    | .ok t => .ok (t, cs)
    | .error e => .error e
  else
    match augEvery r.punct r.additions r.freq parts (ctrGet cs r.punct) with
    | .ok pr => .ok (pr.1, ctrSet cs r.punct pr.2)
    | .error e => .error e

def augGo : List AugRule → List (Str × Nat) → Str → Except Unit (Str × List (Str × Nat))
  | [], cs, t => .ok (t, cs)
  | r :: rs, cs, t =>
    match augApplyRule r cs t with
    | .ok pr => augGo rs pr.2 pr.1
    | .error e => .error e

/-- `SentenceAugmenter.transform`: apply every rule in order, threading the
text and the `_counters` state; returns the new text and the updated stage. -/
def augTransform (a : Augmenter) (text : Str) : Except Unit (Str × Augmenter) :=
  match augGo a.rules a.counters text with
  | .ok pr => .ok (pr.1, { rules := a.rules, counters := pr.2 })
  | .error e => .error e

/-!  ## GlitchTransformer

`random.Random(seed)` is a deterministic generator whose exact algorithm
(Mersenne Twister) lives outside this repository; it is abstracted as an
arbitrary state type `σ` with a seeding function `init` and the two draw
operations the code uses (`randint(1, 100)` and the index draw of
`random.choice`).  Every theorem below is universally quantified over this
interface, so nothing depends on the concrete generator. -/

/-- The module-level `GLITCH_CHARS` palette (60 glyphs, source order). -/
def GLITCH_CHARS : List Char :=
  ['█', '▓', '▒', '░', '▀', '▄', '▌', '▐', '■', '□',
   '▪', '▫', '▬', '▭', '▮', '▯', '▰', '▱', '▲', '△',
   '▴', '▵', '▶', '▷', '▸', '▹', '►', '▻', '▼', '▽',
   '▾', '▿', '◀', '◁', '◂', '◃', '◄', '◅', '◆', '◇',
   '◈', '◉', '◊', '○', '◌', '◍', '◎', '●', '◐', '◑',
   '◒', '◓', '◔', '◕', '◖', '◗', '◘', '◙', '◚', '◛']

/-- The `GlitchTransformer` stage: configured percentage plus the mutable
generator state (`self.random`). -/
structure GlitchTransformer (σ : Type) where
  percentage : Int
  rng : σ

/-- `GlitchTransformer.__init__(percentage, seed)`: `random.Random(seed)`. -/
def glitchNew {σ : Type} (init : Int → σ) (percentage seed : Int) :
    GlitchTransformer σ :=
  ⟨percentage, init seed⟩

/-- `random.choice(GLITCH_CHARS)`: one index draw, then the palette lookup. -/
def glitchPick {σ : Type} (randbelow : σ → Nat × σ) (g : σ) : Char × σ :=
  let d := randbelow g
  (GLITCH_CHARS.getD (d.1 % GLITCH_CHARS.length) ' ', d.2)

/-- The per-character body of `GlitchTransformer.transform`: Python's
short-circuit `and` means a non-alphanumeric character consumes no draw. -/
def glitchStep {σ : Type} (randint : σ → Int × σ) (randbelow : σ → Nat × σ)
    (pct : Int) (c : Char) (g : σ) : Char × σ :=
  if c.isAlphanum then
    let d := randint g
    if d.1 ≤ pct then glitchPick randbelow d.2
    else (c, d.2)
  else (c, g)

/-- The character loop of `GlitchTransformer.transform`. -/
def glitchRun {σ : Type} (randint : σ → Int × σ) (randbelow : σ → Nat × σ)
    (pct : Int) : Str → σ → Str × σ
  | [], g => ([], g)
  | c :: cs, g =>
    let p := glitchStep randint randbelow pct c g
    let rest := glitchRun randint randbelow pct cs p.2
    (p.1 :: rest.1, rest.2)

/-- `GlitchTransformer.transform`: returns the output text and the stage with
its advanced generator. -/
def glitchTransform {σ : Type} (randint : σ → Int × σ) (randbelow : σ → Nat × σ)
    (t : GlitchTransformer σ) (text : Str) : Str × GlitchTransformer σ :=
  let p := glitchRun randint randbelow t.percentage text t.rng
  (p.1, ⟨t.percentage, p.2⟩)

/-!  ## FilterFactory.from_dict (`filter_factory.py`)  -/

/-- A value of the `suffixes` table: either a plain replacement string or a
detailed `{replacement, min_stem}` entry (`min_stem` optional, default 2). -/
inductive SufVal where
  | plain (r : Str)
  | detailed (r : Str) (min_stem : Option Nat)
deriving DecidableEq, Repr

/-- The `glitch` configuration value: a bare integer percentage, or a table
with optional `percentage` (default 100) and `seed` (default 42). -/
inductive GlitchCfg where
  | num (pct : Int)
  | tbl (pct : Option Int) (seed : Option Int)
deriving DecidableEq, Repr

/-- One entry of the `sentence_augmentation` list; `frequency` defaults to 1
(`rule.get('frequency', 1)`). -/
structure AugCfg where
  punctuation : Str
  additions : List Str
  frequency : Option Nat
deriving DecidableEq, Repr

/-- A parsed configuration document: each recognized key is `none` when the
key is absent.  `pre_text`/`suf_text` model the `prefix_text`/`suffix_text`
keys. -/
structure Config where
  substitutions : Option (List (Str × Str))
  characters : Option (List (Str × Str))
  suffixes : Option (List (Str × SufVal))
  prefixes : Option (List (Str × Str))
  sentence_augmentation : Option (List AugCfg)
  glitch : Option GlitchCfg
  word_boundary : Option Bool
  preserve_case : Option Bool
  pre_text : Option Str
  suf_text : Option Str
deriving DecidableEq, Repr

/-- The configuration with every key absent. -/
def emptyConfig : Config := ⟨none, none, none, none, none, none, none, none, none, none⟩

/-- A pipeline stage: the three rule-based transformers share the compiled
rule-list representation; the stateful stages carry their own state. -/
inductive Stage where
  | ruleStage (rs : List CompRule)
  | augStage (a : Augmenter)
  | glitchStage (pct : Int) (seed : Int)
deriving DecidableEq, Repr

/-- `TextFilter`: the stage list plus literal leading/trailing text
(`self.prefix` / `self.suffix`, both initially empty). -/
structure TextFilter where
  transformers : List Stage
  preText : Str
  sufText : Str
deriving DecidableEq, Repr

/-- The `SuffixReplacer` built by `from_dict` from a `suffixes` table:
`add_rule` once per entry, in table order. -/
def buildSuffixStage (entries : List (Str × SufVal)) : List CompRule :=
  entries.map (fun e =>
    match e.2 with
    | .plain r => sufRule e.1 r 2
    | .detailed r ms => sufRule e.1 r (ms.getD 2))

/-- The `PrefixReplacer` built from a `prefixes` table. -/
def buildPrefixStage (entries : List (Str × Str)) : List CompRule :=
  entries.map (fun e => preRule e.1 e.2)

/-- The `SentenceAugmenter` built from a `sentence_augmentation` list. -/
def buildAug (entries : List AugCfg) : Augmenter :=
  entries.foldl
    (fun a e => addAugRule a e.punctuation e.additions (e.frequency.getD 1))
    ⟨[], []⟩

/-- Percentage and seed extracted from the `glitch` value. -/
def glitchOf : GlitchCfg → Int × Int
  | .num p => (p, 42)
  | .tbl p s => (p.getD 100, s.getD 42)

/-- `FilterFactory.from_dict`: one stage per *present* recognized key, in the
fixed order substitutions → characters → suffixes → prefixes →
sentence_augmentation → glitch, then the literal text wrapping. -/
def from_dict (cfg : Config) : TextFilter :=
  { transformers :=
      (match cfg.substitutions with
       | some m => [Stage.ruleStage
           (Substitution m (cfg.word_boundary.getD true) (cfg.preserve_case.getD true))]
       | none => []) ++
      (match cfg.characters with
       | some m => [Stage.ruleStage
           (CharacterSubstitution m (cfg.preserve_case.getD true))]
       | none => []) ++
      (match cfg.suffixes with
       | some es => [Stage.ruleStage (buildSuffixStage es)]
       | none => []) ++
      (match cfg.prefixes with
       | some es => [Stage.ruleStage (buildPrefixStage es)]
       | none => []) ++
      (match cfg.sentence_augmentation with
       | some es => [Stage.augStage (buildAug es)]
       | none => []) ++
      (match cfg.glitch with
       | some g => [Stage.glitchStage (glitchOf g).1 (glitchOf g).2]
       | none => []),
    preText := cfg.pre_text.getD [],
    sufText := cfg.suf_text.getD [] }

/-- Number of present (recognized, stage-producing) keys in a configuration. -/
def presentCount (cfg : Config) : Nat :=
  (if cfg.substitutions.isSome then 1 else 0) +
  (if cfg.characters.isSome then 1 else 0) +
  (if cfg.suffixes.isSome then 1 else 0) +
  (if cfg.prefixes.isSome then 1 else 0) +
  (if cfg.sentence_augmentation.isSome then 1 else 0) +
  (if cfg.glitch.isSome then 1 else 0)

/-- Python's `sep.join`, the inverse glue of `str.split(sep)`. -/
def joinSep (sep : Str) : List Str → Str
  | [] => []
  | [x] => x
  | x :: y :: l => x ++ sep ++ joinSep sep (y :: l)

/-- Number of occurrences of `sep` consumed by `str.split(sep)` (one per
split boundary). -/
def occCount (sep t : Str) : Nat := (pySplitStr sep t).length - 1

/-- The `re.IGNORECASE` flag of a compiled rule's pattern (the affix patterns
always carry it). -/
def ciOf (rule : CompRule) : Bool :=
  match rule.m with
  | .words ci _ _ => ci
  | .sufM _ _ => true
  | .preM _ => true

/-!  ## Helper lemmas  -/

theorem chEq_self (ci : Bool) (c : Char) : chEq ci c c = true := by
  cases ci <;> simp [chEq]

theorem stripLit_self (s u : Str) : stripLit true s (s ++ u) = some (s, u) := by
  induction s with
  | nil => rfl
  | cons c cs ih => simp [stripLit, chEq_self, ih]

theorem stripLit_self_exact (s u : Str) : stripLit false s (s ++ u) = some (s, u) := by
  induction s with
  | nil => rfl
  | cons c cs ih => simp [stripLit, chEq_self, ih]

theorem stripLit_parts {ci : Bool} {p t : Str} {pr : Str × Str}
    (h : stripLit ci p t = some pr) : pr.1 ++ pr.2 = t ∧ pr.1.length = p.length := by
  induction p generalizing t pr with
  | nil =>
    simp [stripLit] at h
    simp [← h]
  | cons c cs ih =>
    cases t with
    | nil => simp [stripLit] at h
    | cons a as =>
      simp only [stripLit] at h
      by_cases hc : chEq ci c a
      · simp only [hc, if_true] at h
        cases hs : stripLit ci cs as with
        | none => rw [hs] at h; simp at h
        | some pr2 =>
          rw [hs] at h
          obtain ⟨h1, h2⟩ := ih hs
          simp only [Option.some, Option.some.injEq] at h
          subst h
          constructor
          · simp [h1]
          · simp [h2]
      · simp [hc] at h

theorem stripLit_none_of_lt {ci : Bool} {p t : Str} (h : t.length < p.length) :
    stripLit ci p t = none := by
  induction p generalizing t with
  | nil => simp at h
  | cons c cs ih =>
    cases t with
    | nil => rfl
    | cons a as =>
      simp only [stripLit]
      by_cases hc : chEq ci c a
      · simp only [hc, if_true]
        rw [ih (by simpa using Nat.lt_of_succ_lt_succ h)]
      · simp [hc]

theorem stripLit_exact_matched {p t : Str} {pr : Str × Str}
    (h : stripLit false p t = some pr) : pr.1 = p := by
  induction p generalizing t pr with
  | nil => simp [stripLit] at h; simp [← h]
  | cons c cs ih =>
    cases t with
    | nil => simp [stripLit] at h
    | cons a as =>
      simp only [stripLit] at h
      by_cases hc : chEq false c a
      · simp only [hc, if_true] at h
        cases hs : stripLit false cs as with
        | none => rw [hs] at h; simp at h
        | some pr2 =>
          rw [hs] at h
          simp only [Option.some.injEq] at h
          subst h
          have : a = c := by
            have := hc
            simp [chEq] at this
            exact this.symm
          simp [this, ih hs]
      · simp [hc] at h

theorem takeWhile_all {f : Char → Bool} {t : Str} (h : ∀ c ∈ t, f c = true) :
    t.takeWhile f = t := by
  induction t with
  | nil => rfl
  | cons c cs ih =>
    simp only [List.takeWhile_cons]
    rw [h c (by simp), ih (fun x hx => h x (by simp [hx]))]
    simp

theorem lastC_word {prev : Option Char} {m : Str} (hne : m ≠ [])
    (h : ∀ c ∈ m, c.isAlpha = true) : optWord (lastC prev m) = true := by
  have hl : m.getLast? = some (m.getLast hne) := List.getLast?_eq_getLast m hne
  have hmem : m.getLast hne ∈ m := List.getLast_mem hne
  have ha := h _ hmem
  simp [lastC, hl, optWord, isWordChar, Char.isAlphanum, ha]

theorem insDesc_perm (x : Str × Str) (l : List (Str × Str)) :
    List.Perm (insDesc x l) (x :: l) := by
  induction l with
  | nil => rfl
  | cons y ys ih =>
    simp only [insDesc]
    by_cases h : x.1.length < y.1.length
    · simp only [h, if_true]
      exact (ih.cons y).trans (List.Perm.swap x y ys)
    · simp [h]

theorem sortDescLen_perm (l : List (Str × Str)) : List.Perm (sortDescLen l) l := by
  induction l with
  | nil => rfl
  | cons x xs ih =>
    simp only [sortDescLen, List.foldr_cons]
    exact (insDesc_perm x _).trans (ih.cons x)

theorem insDesc_pairwise {x : Str × Str} {l : List (Str × Str)}
    (h : List.Pairwise (fun a b : Str × Str => b.1.length ≤ a.1.length) l) :
    List.Pairwise (fun a b : Str × Str => b.1.length ≤ a.1.length) (insDesc x l) := by
  induction l with
  | nil => simp [insDesc]
  | cons y ys ih =>
    simp only [insDesc]
    rw [List.pairwise_cons] at h
    by_cases hc : x.1.length < y.1.length
    · simp only [hc, if_true]
      rw [List.pairwise_cons]
      refine ⟨fun z hz => ?_, ih h.2⟩
      rcases List.mem_cons.mp ((insDesc_perm x ys).mem_iff.mp hz) with hzx | hzy
      · subst hzx; exact Nat.le_of_lt hc
      · exact h.1 z hzy
    · simp only [hc, if_false]
      rw [List.pairwise_cons]
      refine ⟨fun z hz => ?_, by rw [List.pairwise_cons]; exact h⟩
      rcases List.mem_cons.mp hz with hzy | hzys
      · subst hzy; exact Nat.le_of_not_lt hc
      · exact Nat.le_trans (h.1 z hzys) (Nat.le_of_not_lt hc)

theorem sortDescLen_pairwise (l : List (Str × Str)) :
    List.Pairwise (fun a b : Str × Str => b.1.length ≤ a.1.length) (sortDescLen l) := by
  induction l with
  | nil => simp [sortDescLen]
  | cons x xs ih => exact insDesc_pairwise ih

/-- If a rule matches nowhere in `t` (at any scan position, with any previous
character), its `sub` pass returns `t` unchanged — for every fuel. -/
theorem subScanF_nomatch {mt : Matcher} {rep : Repl} {t : Str}
    (h : ∀ prev i, matchAt mt prev (t.drop i) = none) :
    ∀ fuel prev, subScanF mt rep fuel prev t = t := by
  induction t with
  | nil =>
    intro fuel prev
    cases fuel with
    | zero => rfl
    | succ f =>
      have h0 := h prev 0
      simp only [List.drop_nil] at h0
      simp [subScanF, h0]
  | cons c cs ih =>
    intro fuel prev
    cases fuel with
    | zero => rfl
    | succ f =>
      have h0 := h prev 0
      simp only [List.drop_zero] at h0
      simp only [subScanF, h0]
      rw [ih (fun prev' i => by simpa using h prev' (i + 1)) f (some c)]

theorem joinSep_cons (sep x : Str) {l : List Str} (h : l ≠ []) :
    joinSep sep (x :: l) = x ++ sep ++ joinSep sep l := by
  cases l with
  | nil => exact absurd rfl h
  | cons y ys => rfl

theorem splitAuxF_ne_nil (s0 : Char) (sr : Str) (fuel : Nat) (t acc : Str) :
    splitAuxF s0 sr fuel t acc ≠ [] := by
  induction fuel generalizing t acc with
  | zero => simp [splitAuxF]
  | succ f ih =>
    cases t with
    | nil => simp [splitAuxF]
    | cons c cs =>
      simp only [splitAuxF]
      cases h : stripLit false (s0 :: sr) (c :: cs) with
      | none => exact ih cs (c :: acc)
      | some pr => simp

theorem splitAuxF_reconstruct (s0 : Char) (sr : Str) (fuel : Nat) (t acc : Str) :
    joinSep (s0 :: sr) (splitAuxF s0 sr fuel t acc) = acc.reverse ++ t := by
  induction fuel generalizing t acc with
  | zero => simp [splitAuxF, joinSep]
  | succ f ih =>
    cases t with
    | nil => simp [splitAuxF, joinSep]
    | cons c cs =>
      simp only [splitAuxF]
      cases h : stripLit false (s0 :: sr) (c :: cs) with
      | none =>
        rw [ih cs (c :: acc)]
        simp
      | some pr =>
        have hm := stripLit_exact_matched h
        have hp := (stripLit_parts h).1
        have hrest : (s0 :: sr) ++ pr.2 = c :: cs := by rw [← hm]; exact hp
        rw [joinSep_cons _ _ (splitAuxF_ne_nil s0 sr f pr.2 [])]
        rw [ih pr.2 []]
        simp only [List.reverse_nil, List.nil_append]
        rw [List.append_assoc, hrest]

/-- `str.split` then `sep.join` is the identity (the split is faithful). -/
theorem pySplitStr_reconstruct (sep t : Str) : joinSep sep (pySplitStr sep t) = t := by
  cases sep with
  | nil => rfl
  | cons s0 sr =>
    simp only [pySplitStr]
    rw [splitAuxF_reconstruct]
    simp

theorem pySplitStr_ne_nil (sep t : Str) : pySplitStr sep t ≠ [] := by
  cases sep with
  | nil => simp [pySplitStr]
  | cons s0 sr => exact splitAuxF_ne_nil _ _ _ _ _

/-- The `frequency > 1` loop never fails and advances the counter by exactly
one per split boundary (= per occurrence of the punctuation). -/
theorem augEvery_ok (punct : Str) (adds : List Str) (freq : Nat)
    (hf : 2 ≤ freq) (ha : adds ≠ []) :
    ∀ (parts : List Str) (c : Nat),
      ∃ out, augEvery punct adds freq parts c = .ok (out, c + (parts.length - 1)) := by
  intro parts
  induction parts with
  | nil => intro c; exact ⟨[], by simp [augEvery]⟩
  | cons p rest ih =>
    intro c
    cases rest with
    | nil => exact ⟨p, by simp [augEvery]⟩
    | cons q rs =>
      obtain ⟨out, hout⟩ := ih (c + 1)
      have hf0 : (freq == 0) = false := by
        simp only [beq_eq_false_iff_ne]
        omega
      have hcnt : c + 1 + ((q :: rs).length - 1) = c + ((p :: q :: rs).length - 1) := by
        simp only [List.length_cons]
        omega
      by_cases hc : c % freq = 0
      · have ha0 : (adds.length == 0) = false := by
          simp only [beq_eq_false_iff_ne]
          intro h0
          exact ha (List.eq_nil_of_length_eq_zero h0)
        refine ⟨p ++ punct ++ adds.getD (c % adds.length) [] ++ out, ?_⟩
        simp only [augEvery, hf0, Bool.false_eq_true, if_false, hc, beq_self_eq_true,
          if_true, ha0, hout, hcnt]
      · have hc' : (c % freq == 0) = false := by simpa using hc
        refine ⟨p ++ punct ++ out, ?_⟩
        simp only [augEvery, hf0, Bool.false_eq_true, if_false, hc', hout, hcnt]

/-- `SentenceAugmenter.transform` for a single `frequency > 1` rule: the
counter is read from the persistent `_counters` entry, advanced once per
occurrence, and written back — it is never reset by `transform`. -/
theorem augApplyRule_every (r : AugRule) (cs : List (Str × Nat)) (text : Str)
    (hf : 2 ≤ r.freq) (ha : r.additions ≠ []) :
    ∃ out, augApplyRule r cs text =
      .ok (out, ctrSet cs r.punct (ctrGet cs r.punct + occCount r.punct text)) := by
  obtain ⟨out, hout⟩ := augEvery_ok r.punct r.additions r.freq hf ha
    (pySplitStr r.punct text) (ctrGet cs r.punct)
  refine ⟨out, ?_⟩
  have hne : (r.freq == 1) = false := by
    simp only [beq_eq_false_iff_ne]
    omega
  simp only [augApplyRule, hne, Bool.false_eq_true, if_false, hout, occCount]

theorem glitchRun_length {σ : Type} (randint : σ → Int × σ) (randbelow : σ → Nat × σ)
    (pct : Int) (text : Str) (g : σ) :
    (glitchRun randint randbelow pct text g).1.length = text.length := by
  induction text generalizing g with
  | nil => rfl
  | cons c cs ih => simp [glitchRun, ih]

theorem glitchStep_nonalnum {σ : Type} (randint : σ → Int × σ) (randbelow : σ → Nat × σ)
    (pct : Int) (c : Char) (g : σ) (h : c.isAlphanum = false) :
    glitchStep randint randbelow pct c g = (c, g) := by
  simp [glitchStep, h]

theorem glitchRun_pos {σ : Type} (randint : σ → Int × σ) (randbelow : σ → Nat × σ)
    (pct : Int) (text : Str) (g : σ) (i : Nat) (c : Char)
    (hc : text[i]? = some c) (hna : c.isAlphanum = false) :
    ((glitchRun randint randbelow pct text g).1)[i]? = some c := by
  induction text generalizing g i with
  | nil => simp at hc
  | cons a as ih =>
    cases i with
    | zero =>
      simp only [List.getElem?_cons_zero, Option.some.injEq] at hc
      subst hc
      simp [glitchRun, glitchStep_nonalnum randint randbelow pct a g hna]
    | succ j =>
      simp only [List.getElem?_cons_succ] at hc
      simp only [glitchRun, List.getElem?_cons_succ]
      exact ih _ j hc

theorem glitchRun_nonalnum {σ : Type} (randint : σ → Int × σ) (randbelow : σ → Nat × σ)
    (pct : Int) (text : Str) (g : σ) (h : ∀ c ∈ text, c.isAlphanum = false) :
    glitchRun randint randbelow pct text g = (text, g) := by
  induction text generalizing g with
  | nil => rfl
  | cons c cs ih =>
    have hc := h c (by simp)
    simp only [glitchRun, glitchStep_nonalnum randint randbelow pct c g hc]
    rw [ih g (fun x hx => h x (by simp [hx]))]

theorem sufCheck_hit (s stem : Str) (prev : Option Char)
    (hstem : ∀ c ∈ stem, c.isAlpha = true) (hs : ∀ c ∈ s, c.isAlpha = true)
    (hsne : s ≠ []) :
    sufCheck s prev (stem ++ s) stem.length = some (stem ++ s, stem, []) := by
  have hss : stripLit true s s = some (s, []) := by
    have := stripLit_self s []
    simpa using this
  have hne : stem ++ s ≠ [] := by simp [hsne]
  have hall : ∀ c ∈ stem ++ s, c.isAlpha = true := by
    intro c hc
    rcases List.mem_append.mp hc with h | h
    · exact hstem c h
    · exact hs c h
  have hword : optWord (lastC prev (stem ++ s)) = true := lastC_word hne hall
  simp only [sufCheck, List.take_left, List.drop_left, hss]
  simp only [List.head?_nil, isBdry, hword]
  rfl

theorem sufTryK_hit (s stem : Str) (prev : Option Char) (m : Nat)
    (hstem : ∀ c ∈ stem, c.isAlpha = true) (hs : ∀ c ∈ s, c.isAlpha = true)
    (hsne : s ≠ []) (hm : m ≤ stem.length) :
    ∀ j, stem.length ≤ j → j ≤ (stem ++ s).length →
      sufTryK m s prev (stem ++ s) j = some (stem ++ s, stem, []) := by
  intro j
  induction j with
  | zero =>
    intro h1 _
    have hstem0 : stem = [] := List.eq_nil_of_length_eq_zero (Nat.le_zero.mp h1)
    have hm0 : m = 0 := by omega
    subst hstem0
    have := sufCheck_hit s [] prev hstem hs hsne
    simp only [List.length_nil, List.nil_append] at this
    simp [sufTryK, hm0, this]
  | succ j ih =>
    intro h1 h2
    have hnm : ¬ (j + 1 < m) := by omega
    by_cases he : stem.length = j + 1
    · simp only [sufTryK, hnm, if_false]
      rw [← he, sufCheck_hit s stem prev hstem hs hsne]
    · have hlt : stem.length ≤ j := by omega
      have hfail : sufCheck s prev (stem ++ s) (j + 1) = none := by
        have hdl : ((stem ++ s).drop (j + 1)).length < s.length := by
          simp only [List.length_drop, List.length_append]
          have hs1 : 1 ≤ s.length := by
            cases s with
            | nil => exact absurd rfl hsne
            | cons a as => simp
          omega
        simp only [sufCheck, stripLit_none_of_lt hdl]
      simp only [sufTryK, hnm, if_false, hfail]
      exact ih hlt (by omega)

theorem sufMatchAt_hit (s stem : Str) (prev : Option Char) (m : Nat)
    (hstem : ∀ c ∈ stem, c.isAlpha = true) (hs : ∀ c ∈ s, c.isAlpha = true)
    (hsne : s ≠ []) (hm : m ≤ stem.length) :
    sufMatchAt m s prev (stem ++ s) = some (stem ++ s, stem, []) := by
  have hall : ∀ c ∈ stem ++ s, alphaB c = true := by
    intro c hc
    rcases List.mem_append.mp hc with h | h
    · simpa [alphaB] using hstem c h
    · simpa [alphaB] using hs c h
  simp only [sufMatchAt, takeWhile_all hall]
  exact sufTryK_hit s stem prev m hstem hs hsne hm (stem ++ s).length
    (by simp) (Nat.le_refl _)

theorem sufMatchAt_nil (m : Nat) (s : Str) (prev : Option Char) (hsne : s ≠ []) :
    sufMatchAt m s prev [] = none := by
  have hs1 : 0 < s.length := by
    cases s with
    | nil => exact absurd rfl hsne
    | cons a as => simp
  have h0 : sufCheck s prev [] 0 = none := by
    have hnone : stripLit true s ([] : Str) = none :=
      stripLit_none_of_lt (by simpa using hs1)
    simp [sufCheck, hnone]
  by_cases hm0 : m = 0
  · simp [sufMatchAt, sufTryK, hm0, h0]
  · simp [sufMatchAt, sufTryK, hm0]

theorem sufTryK_none (m : Nat) (s : Str) (prev : Option Char) (u : Str)
    (h : ∀ k, m ≤ k → sufCheck s prev u k = none) :
    ∀ j, sufTryK m s prev u j = none := by
  intro j
  induction j with
  | zero =>
    by_cases hm0 : m = 0
    · simp [sufTryK, hm0, h 0 (by omega)]
    · simp [sufTryK, hm0]
  | succ j ih =>
    by_cases hj : j + 1 < m
    · simp [sufTryK, hj]
    · simp only [sufTryK, hj, if_false, h (j + 1) (by omega)]
      exact ih

/-- With a stem requirement the word cannot meet, every backtracking attempt
at every scan position fails: the only suffix occurrence sitting at a
word-ending boundary leaves a stem shorter than `m`, and interior occurrences
are followed by a letter (no `\b`). -/
theorem sufCheck_miss (s stem : Str) (m : Nat) (prev : Option Char) (i : Nat)
    (hstem : ∀ c ∈ stem, c.isAlpha = true) (hs : ∀ c ∈ s, c.isAlpha = true)
    (hsne : s ≠ []) (hm : stem.length < m) :
    ∀ k, m ≤ k → sufCheck s prev ((stem ++ s).drop i) k = none := by
  intro k hk
  set u : Str := (stem ++ s).drop i with hu
  have hallw : ∀ c ∈ stem ++ s, c.isAlpha = true := by
    intro c hc
    rcases List.mem_append.mp hc with h | h
    · exact hstem c h
    · exact hs c h
  have hallu : ∀ c ∈ u, c.isAlpha = true := fun c hc =>
    hallw c (List.drop_subset i (stem ++ s) hc)
  have hs1 : 1 ≤ s.length := by
    cases s with
    | nil => exact absurd rfl hsne
    | cons a as => simp
  have hulen : u.length = (stem ++ s).length - i := by simp [hu]
  have hwlen : (stem ++ s).length = stem.length + s.length := by simp
  by_cases hshort : (u.drop k).length < s.length
  · simp only [sufCheck, stripLit_none_of_lt hshort]
  · have hdromlen : (u.drop k).length = u.length - k := by simp
    by_cases heq : (u.drop k).length = s.length
    · -- the word-ending occurrence: the stem before it has length < m ≤ k
      omega
    · -- interior occurrence: the character after the suffix is a letter
      have hgt : s.length < (u.drop k).length := by omega
      simp only [sufCheck]
      cases hsl : stripLit true s (u.drop k) with
      | none => rfl
      | some pr =>
        obtain ⟨hparts, hplen⟩ := stripLit_parts hsl
        have hp2len : 1 ≤ pr.2.length := by
          have : pr.1.length + pr.2.length = (u.drop k).length := by
            rw [← hparts]; simp
          omega
        have hp2ne : pr.2 ≠ [] := by
          cases h2 : pr.2 with
          | nil => rw [h2] at hp2len; simp at hp2len
          | cons a as => simp
        obtain ⟨h2, t2, h2eq⟩ := List.exists_cons_of_ne_nil hp2ne
        have hh2mem : h2 ∈ u := by
          apply List.drop_subset k u
          rw [← hparts, h2eq]
          exact List.mem_append_right _ (by simp)
        have hh2alpha := hallu h2 hh2mem
        have hp1ne : pr.1 ≠ [] := by
          intro hnil
          rw [hnil] at hplen
          simp at hplen
          omega
        have hmne : u.take k ++ pr.1 ≠ [] := by
          simp [hp1ne]
        have hmall : ∀ c ∈ u.take k ++ pr.1, c.isAlpha = true := by
          intro c hc
          rcases List.mem_append.mp hc with h | h
          · exact hallu c (List.take_subset k u h)
          · refine hallu c ?_
            apply List.drop_subset k u
            rw [← hparts]
            exact List.mem_append_left _ h
        have hword := @lastC_word prev (List.take k u ++ pr.1) hmne hmall
        have hbdry : isBdry (lastC prev (u.take k ++ pr.1)) pr.2.head? = false := by
          rw [h2eq]
          simp only [List.head?_cons, isBdry, hword]
          simp [optWord, isWordChar, Char.isAlphanum, hh2alpha]
        simp only [hsl, hbdry]
        simp

theorem sufMatchAt_miss (s stem : Str) (m : Nat) (prev : Option Char) (i : Nat)
    (hstem : ∀ c ∈ stem, c.isAlpha = true) (hs : ∀ c ∈ s, c.isAlpha = true)
    (hsne : s ≠ []) (hm : stem.length < m) :
    sufMatchAt m s prev ((stem ++ s).drop i) = none := by
  simp only [sufMatchAt]
  exact sufTryK_none m s prev _ (sufCheck_miss s stem m prev i hstem hs hsne hm) _

theorem runRules_single (rule : CompRule) (t : Str) :
    runRules [rule] t = patSub rule.m rule.r t := rfl

/-- Full suffix-stage pass over a word `stem ++ suffix` with a satisfiable
stem requirement: the whole word is consumed greedily (longest stem), and the
output is the stem as found followed by the literal replacement. -/
theorem suffix_transform_hit (stem s r : Str) (m : Nat)
    (hstem : ∀ c ∈ stem, c.isAlpha = true) (hs : ∀ c ∈ s, c.isAlpha = true)
    (hsne : s ≠ []) (hm : m ≤ stem.length) :
    runRules [sufRule s r m] (stem ++ s) = stem ++ r := by
  have hmatch : matchAt (Matcher.sufM m s) none (stem ++ s) =
      some (stem ++ s, stem, []) := by
    simp only [matchAt]
    exact sufMatchAt_hit s stem none m hstem hs hsne hm
  have hne : stem ++ s ≠ [] := by simp [hsne]
  obtain ⟨c, cs, hw⟩ := List.exists_cons_of_ne_nil hne
  rw [runRules_single]
  simp only [sufRule, patSub]
  rw [hw] at hmatch ⊢
  have hnilm : matchAt (Matcher.sufM m s) (lastC none (c :: cs)) [] = none := by
    simp only [matchAt]
    exact sufMatchAt_nil m s _ hsne
  simp only [List.length_cons, subScanF, hmatch, applyRep, hnilm,
    List.isEmpty_cons, Bool.false_eq_true, if_false]
  simp

/-- Full suffix-stage pass over a word `stem ++ suffix` whose stem is too
short: no position matches, the text is returned unchanged. -/
theorem suffix_transform_miss (stem s r : Str) (m : Nat)
    (hstem : ∀ c ∈ stem, c.isAlpha = true) (hs : ∀ c ∈ s, c.isAlpha = true)
    (hsne : s ≠ []) (hm : stem.length < m) :
    runRules [sufRule s r m] (stem ++ s) = stem ++ s := by
  rw [runRules_single]
  simp only [sufRule, patSub]
  exact subScanF_nomatch
    (fun prev i => by
      simp only [matchAt]
      exact sufMatchAt_miss s stem m prev i hstem hs hsne hm) _ _

/-- Python `str.isupper()` in terms of the claim's wording: entirely
upper-case with at least one cased character. -/
theorem pyIsUpper_iff (o : Str) :
    pyIsUpper o = true ↔
      (∃ c ∈ o, c.isAlpha = true) ∧ (∀ c ∈ o, c.isAlpha = true → c.isUpper = true) := by
  simp only [pyIsUpper, Bool.and_eq_true, List.any_eq_true, List.all_eq_true]
  constructor
  · rintro ⟨⟨c, hc, hca⟩, hall⟩
    refine ⟨⟨c, hc, hca⟩, fun x hx hxa => ?_⟩
    have := hall x hx
    simp [hxa] at this
    exact this
  · rintro ⟨⟨c, hc, hca⟩, hall⟩
    refine ⟨⟨c, hc, hca⟩, fun x hx => ?_⟩
    by_cases hxa : x.isAlpha = true
    · simp [hall x hx hxa]
    · simp [Bool.eq_false_iff.mpr hxa]

/-- Claim C1: for every Substitution mapping the matchers are compiled in
descending order of key length (stably re-sorted, a permutation of the
table) and applied in exactly that order; in particular the rules
going to→gonna, going→goin transform the sentence to gonna, never goin. -/
theorem C1_longest_match_first :
    (∀ (l : List (Str × Str)) (wb pc : Bool),
      List.Pairwise (fun a b : Str × Str => b.1.length ≤ a.1.length) (sortDescLen l) ∧
      List.Perm (sortDescLen l) l ∧
      Substitution l wb pc = (sortDescLen l).map (compileOne wb pc)) ∧
    (∀ (rule : CompRule) (rules : List CompRule) (t : Str),
      runRules (rule :: rules) t = runRules rules (patSub rule.m rule.r t)) ∧
    runRules (Substitution [("going to".toList, "gonna".toList),
        ("going".toList, "goin".toList)] true true) ("I am going to run".toList) =
      ("I am gonna run".toList) ∧
    ("I am gonna run".toList : Str) ≠ ("I am goin to run".toList : Str) := by
  refine ⟨fun l wb pc => ⟨sortDescLen_pairwise l, sortDescLen_perm l, rfl⟩,
    fun rule rules t => rfl, by decide, by decide⟩

/-- Claim C2 counterexample: in a CharacterSubstitution stage with rules
ab→(x cd x) and cd→Q (equal key lengths, stable order), transforming the
text ab yields x q x — the later rule cd→Q rewrote the span cd that was
introduced by the earlier rule's replacement, so replacement text of one rule
is NOT protected from later rules of the same stage. -/
theorem C2_counterexample :
    runRules (CharacterSubstitution [("ab".toList, "x cd x".toList),
        ("cd".toList, "Q".toList)] true) ("ab".toList) = ("x q x".toList) ∧
    ("x q x".toList : Str) ≠ ("x cd x".toList : Str) := by
  exact ⟨by decide, by decide⟩

/-- A one-rule CharacterSubstitution pass (exact matching, verbatim
replacement) maps the key itself to exactly the replacement: the scan resumes
after the inserted replacement, so the rule never re-matches its own output —
even when the replacement contains the key. -/
theorem charSub_single_self (k r : Str) (hk : k ≠ []) :
    runRules (CharacterSubstitution [(k, r)] false) k = r := by
  obtain ⟨c, cs, hw⟩ := List.exists_cons_of_ne_nil hk
  subst hw
  have hcs : CharacterSubstitution [(c :: cs, r)] false =
      [⟨Matcher.words false false [c :: cs], Repl.litR r⟩] := rfl
  have hstrip : stripLit false (c :: cs) (c :: cs) = some (c :: cs, []) := by
    have := stripLit_self_exact (c :: cs) []
    simpa using this
  have hmatch : matchAt (Matcher.words false false [c :: cs]) none (c :: cs) =
      some (c :: cs, [], []) := by
    simp [matchAt, matchWordsAt, matchWords, hstrip, matchTail]
  have hnilm : matchAt (Matcher.words false false [c :: cs])
      (lastC none (c :: cs)) [] = none := by
    simp [matchAt, matchWordsAt, matchWords, stripLit]
  rw [hcs, runRules_single]
  simp only [patSub, List.length_cons, subScanF, hmatch, hnilm,
    List.isEmpty_cons, Bool.false_eq_true, if_false, applyRep]
  simp

/-- Claim C2 corrected: within one stage pass, a rule never re-scans the text
its own replacements produced (one-rule pass over its own key returns exactly
the replacement, even when the replacement contains the key); but text
introduced by an earlier rule's replacement IS visible to, and may be
rewritten by, later rules of the same stage. -/
theorem C2_amended :
    (∀ (k r : Str), k ≠ [] →
      runRules (CharacterSubstitution [(k, r)] false) k = r) ∧
    runRules (CharacterSubstitution [("ab".toList, "x cd x".toList),
        ("cd".toList, "Q".toList)] true) ("ab".toList) = ("x q x".toList) := by
  exact ⟨charSub_single_self, by decide⟩

/-- Witness for C2_amended at the one-character rule a→aa whose replacement
contains its own key. -/
theorem C2_amended_witness :
    (("a".toList : Str) ≠ []) ∧
    runRules (CharacterSubstitution [("a".toList, "aa".toList)] false)
      ("a".toList) = ("aa".toList) := by
  exact ⟨by decide, C2_amended.1 ("a".toList) ("aa".toList) (by decide)⟩

/-- Claim C3: the case adapter returns the replacement fully upper-cased when
the original is entirely upper-case with at least one cased character;
otherwise first-character-upper-cased (rest exactly as supplied) when the
original starts upper-case; otherwise first-character-lower-cased; empty
original or replacement returns the replacement unchanged.  The rule
hello→hey maps Hello→Hey, HELLO→HEY, hello→hey. -/
theorem C3_case_adapter :
    (∀ r : Str, same_cap [] r = r) ∧
    (∀ o : Str, same_cap o [] = []) ∧
    (∀ (o : Str) (r0 : Char) (rs : Str),
      (∃ c ∈ o, c.isAlpha = true) → (∀ c ∈ o, c.isAlpha = true → c.isUpper = true) →
      same_cap o (r0 :: rs) = (r0 :: rs).map Char.toUpper) ∧
    (∀ (o0 : Char) (os : Str) (r0 : Char) (rs : Str),
      ¬((∃ c ∈ o0 :: os, c.isAlpha = true) ∧
        (∀ c ∈ o0 :: os, c.isAlpha = true → c.isUpper = true)) →
      o0.isUpper = true →
      same_cap (o0 :: os) (r0 :: rs) = Char.toUpper r0 :: rs) ∧
    (∀ (o0 : Char) (os : Str) (r0 : Char) (rs : Str),
      ¬((∃ c ∈ o0 :: os, c.isAlpha = true) ∧
        (∀ c ∈ o0 :: os, c.isAlpha = true → c.isUpper = true)) →
      o0.isUpper = false →
      same_cap (o0 :: os) (r0 :: rs) = Char.toLower r0 :: rs) ∧
    runRules (Substitution [("hello".toList, "hey".toList)] true true)
      ("Hello".toList) = ("Hey".toList) ∧
    runRules (Substitution [("hello".toList, "hey".toList)] true true)
      ("HELLO".toList) = ("HEY".toList) ∧
    runRules (Substitution [("hello".toList, "hey".toList)] true true)
      ("hello".toList) = ("hey".toList) := by
  refine ⟨fun r => rfl, fun o => ?_, fun o r0 rs h1 h2 => ?_,
    fun o0 os r0 rs hne hu => ?_, fun o0 os r0 rs hne hu => ?_,
    by decide, by decide, by decide⟩
  · cases o <;> rfl
  · cases o with
    | nil => simp at h1
    | cons o0 os =>
      have hup : pyIsUpper (o0 :: os) = true := (pyIsUpper_iff _).mpr ⟨h1, h2⟩
      simp [same_cap, hup]
  · have hup : pyIsUpper (o0 :: os) = false := by
      rw [Bool.eq_false_iff]
      intro hT
      exact hne ((pyIsUpper_iff _).mp hT)
    simp [same_cap, hup, hu]
  · have hup : pyIsUpper (o0 :: os) = false := by
      rw [Bool.eq_false_iff]
      intro hT
      exact hne ((pyIsUpper_iff _).mp hT)
    simp [same_cap, hup, hu]

/-- Witness for C3_case_adapter: the entirely-upper-case branch at
original HELLO, replacement hey. -/
theorem C3_case_adapter_witness :
    (∃ c ∈ ("HELLO".toList : Str), c.isAlpha = true) ∧
    same_cap ("HELLO".toList) ("hey".toList) = ("hey".toList).map Char.toUpper := by
  exact ⟨by decide, C3_case_adapter.2.2.1 ("HELLO".toList) 'h' ("ey".toList)
    (by decide) (by decide)⟩

/-- Claim C4 counterexample: with preserve_case disabled the compiled pattern
carries no IGNORECASE flag, so the key hello does NOT match the input Hello
— matching is case-sensitive, contradicting the claim that matching is
case-insensitive for both values of the switch. -/
theorem C4_counterexample :
    runRules (Substitution [("hello".toList, "hey".toList)] true false)
      ("Hello".toList) = ("Hello".toList) ∧
    ("Hello".toList : Str) ≠ ("hey".toList : Str) := by
  exact ⟨by decide, by decide⟩

/-- Claim C4 corrected: every compiled Substitution/CharacterSubstitution
rule carries the IGNORECASE flag exactly when preserve_case is enabled —
matching is case-insensitive only in that case; with the switch off matching
is exact and the literal replacement is used verbatim. -/
theorem C4_amended :
    (∀ (l : List (Str × Str)) (wb pc : Bool) (rule : CompRule),
      rule ∈ Substitution l wb pc → ciOf rule = pc) ∧
    (∀ (l : List (Str × Str)) (pc : Bool) (rule : CompRule),
      rule ∈ CharacterSubstitution l pc → ciOf rule = pc) ∧
    runRules (Substitution [("hello".toList, "hey".toList)] true true)
      ("HELLO".toList) = ("HEY".toList) ∧
    runRules (Substitution [("hello".toList, "hey".toList)] true false)
      ("Hello".toList) = ("Hello".toList) ∧
    runRules (Substitution [("hello".toList, "hey".toList)] true false)
      ("hello".toList) = ("hey".toList) := by
  refine ⟨fun l wb pc rule h => ?_, fun l pc rule h => ?_,
    by decide, by decide, by decide⟩
  · obtain ⟨kv, _, rfl⟩ := List.mem_map.mp h
    simp [compileOne, ciOf]
  · obtain ⟨kv, _, rfl⟩ := List.mem_map.mp h
    simp [ciOf]

/-- Witness for C4_amended: the compiled rule of hello→hey with
preserve_case off carries no IGNORECASE flag. -/
theorem C4_amended_witness :
    (compileOne true false ("hello".toList, "hey".toList) ∈
      Substitution [("hello".toList, "hey".toList)] true false) ∧
    ciOf (compileOne true false ("hello".toList, "hey".toList)) = false := by
  refine ⟨by decide, C4_amended.1 [("hello".toList, "hey".toList)] true false _ (by decide)⟩

/-- Claim C5: for a suffix rule with suffix s, replacement r and minimum stem
length m, a word made of a run of at least m letters followed by s is
rewritten to the stem as found plus the literal r (no case adaptation), and a
word whose stem is shorter than m is left unchanged; concretely
ing→(in + apostrophe) with min_stem 2 turns singing into singin-apostrophe
(and SINGING into SINGin-apostrophe, showing case-insensitive suffix matching
and the unadapted replacement), while aing is untouched. -/
theorem C5_suffix_rule :
    (∀ (stem s r : Str) (m : Nat),
      (∀ c ∈ stem, c.isAlpha = true) → (∀ c ∈ s, c.isAlpha = true) → s ≠ [] →
      ((m ≤ stem.length → runRules [sufRule s r m] (stem ++ s) = stem ++ r) ∧
       (stem.length < m → runRules [sufRule s r m] (stem ++ s) = stem ++ s))) ∧
    runRules [sufRule ("ing".toList) ("in".toList ++ [Char.ofNat 39]) 2]
      ("singing".toList) = ("singin".toList ++ [Char.ofNat 39]) ∧
    runRules [sufRule ("ing".toList) ("in".toList ++ [Char.ofNat 39]) 2]
      ("SINGING".toList) = ("SING".toList ++ "in".toList ++ [Char.ofNat 39]) ∧
    runRules [sufRule ("ing".toList) ("in".toList ++ [Char.ofNat 39]) 2]
      ("aing".toList) = ("aing".toList) := by
  refine ⟨fun stem s r m hstem hs hsne =>
    ⟨fun hm => suffix_transform_hit stem s r m hstem hs hsne hm,
     fun hm => suffix_transform_miss stem s r m hstem hs hsne hm⟩,
    by decide, by decide, by decide⟩

/-- Witness for C5_suffix_rule: stem sing with suffix ing and m = 2. -/
theorem C5_suffix_rule_witness :
    (∀ c ∈ ("sing".toList : Str), c.isAlpha = true) ∧
    runRules [sufRule ("ing".toList) ("x".toList) 2]
      ("sing".toList ++ "ing".toList) = ("sing".toList ++ "x".toList) := by
  exact ⟨by decide,
    (C5_suffix_rule.1 ("sing".toList) ("ing".toList) ("x".toList) 2
      (by decide) (by decide) (by decide)).1 (by decide)⟩

/-- A single frequency-1 rule leaves a text without any occurrence of its
punctuation unchanged (the split yields one part, the loop body never runs). -/
theorem augOnce_no_occ (punct : Str) (adds : List Str) (text : Str)
    (h : occCount punct text = 0) :
    augTransform (addAugRule ⟨[], []⟩ punct adds 1) text =
      .ok (text, addAugRule ⟨[], []⟩ punct adds 1) := by
  have hne := pySplitStr_ne_nil punct text
  have hpos : 1 ≤ (pySplitStr punct text).length := by
    cases hp : pySplitStr punct text with
    | nil => exact absurd hp hne
    | cons a as => simp
  have hlen : (pySplitStr punct text).length = 1 := by
    simp only [occCount] at h
    omega
  obtain ⟨x, hx⟩ := List.length_eq_one.mp hlen
  have hxt : x = text := by
    have hrec := pySplitStr_reconstruct punct text
    rw [hx] at hrec
    simpa [joinSep] using hrec
  have happ : augApplyRule ⟨punct, adds, 1⟩ [] text = .ok (text, []) := by
    simp only [augApplyRule, hx, hxt, beq_self_eq_true, if_true]
    simp [augAlways]
  simp [augTransform, augGo, addAugRule, happ]

/-- Claim C6: for a frequency-N rule (N > 1) the per-punctuation counter is
read from the persistent state, advanced once per occurrence, and written
back (never reset by transform); an addition is appended exactly at
occurrences where counter mod N = 0, chosen at index counter mod list
length.  Concretely the rule (period, [A,B], 2) on One. Two. Three. Four.
augments only the 1st and 3rd occurrences (counters 0 and 2), and a second
transform call on the same stage continues from the stored counter. -/
theorem C6_augmentation_counter :
    (∀ (r : AugRule) (cs : List (Str × Nat)) (text : Str),
      2 ≤ r.freq → r.additions ≠ [] →
      ∃ out, augApplyRule r cs text =
        .ok (out, ctrSet cs r.punct (ctrGet cs r.punct + occCount r.punct text))) ∧
    augTransform (addAugRule ⟨[], []⟩ (".".toList) ["A".toList, "B".toList] 2)
        ("One. Two. Three. Four.".toList) =
      .ok ("One.A Two. Three.A Four.".toList,
        ⟨[⟨".".toList, ["A".toList, "B".toList], 2⟩], [(".".toList, 4)]⟩) ∧
    augTransform (addAugRule ⟨[], []⟩ (".".toList) ["A".toList, "B".toList] 2)
        ("One. Two. Three.".toList) =
      .ok ("One.A Two. Three.A".toList,
        ⟨[⟨".".toList, ["A".toList, "B".toList], 2⟩], [(".".toList, 3)]⟩) ∧
    augTransform ⟨[⟨".".toList, ["A".toList, "B".toList], 2⟩], [(".".toList, 3)]⟩
        ("Four. Five.".toList) =
      .ok ("Four. Five.A".toList,
        ⟨[⟨".".toList, ["A".toList, "B".toList], 2⟩], [(".".toList, 5)]⟩) := by
  exact ⟨fun r cs text hf ha => augApplyRule_every r cs text hf ha, rfl, rfl, rfl⟩

/-- Witness for C6_augmentation_counter: the rule (period, [A], 2) on a text
with two occurrences, starting from the empty counters dictionary. -/
theorem C6_augmentation_counter_witness :
    (2 ≤ (⟨".".toList, ["A".toList], 2⟩ : AugRule).freq) ∧
    ∃ out, augApplyRule ⟨".".toList, ["A".toList], 2⟩ [] ("Hi. Yo.".toList) =
      .ok (out, ctrSet [] (".".toList)
        (ctrGet [] (".".toList) + occCount (".".toList) ("Hi. Yo.".toList))) := by
  exact ⟨by decide,
    C6_augmentation_counter.1 ⟨".".toList, ["A".toList], 2⟩ [] ("Hi. Yo.".toList)
      (by decide) (by decide)⟩

/-- Claim C7 counterexample: a frequency-1 rule (period, [A]) applied to
One. — whose only occurrence of the punctuation is at the very end — appends
the addition there: the result is One.A, not the unchanged One. the claim
requires. -/
theorem C7_counterexample :
    augTransform (addAugRule ⟨[], []⟩ (".".toList) ["A".toList] 1)
        ("One.".toList) =
      .ok ("One.A".toList, addAugRule ⟨[], []⟩ (".".toList) ["A".toList] 1) ∧
    ("One.A".toList : Str) ≠ ("One.".toList : Str) := by
  exact ⟨rfl, by decide⟩

/-- Claim C7 corrected: an addition may be appended after every occurrence of
the trigger punctuation, including an occurrence at the very end of the
input (the loop excludes only the trailing text after the last occurrence,
not the last occurrence itself); a text with no occurrence is unchanged. -/
theorem C7_amended :
    (∀ (punct : Str) (adds : List Str) (text : Str), occCount punct text = 0 →
      augTransform (addAugRule ⟨[], []⟩ punct adds 1) text =
        .ok (text, addAugRule ⟨[], []⟩ punct adds 1)) ∧
    augTransform (addAugRule ⟨[], []⟩ (".".toList) ["A".toList] 1)
        ("One.".toList) =
      .ok ("One.A".toList, addAugRule ⟨[], []⟩ (".".toList) ["A".toList] 1) ∧
    augTransform (addAugRule ⟨[], []⟩ (".".toList) ["A".toList] 1)
        ("One. Two".toList) =
      .ok ("One.A Two".toList, addAugRule ⟨[], []⟩ (".".toList) ["A".toList] 1) := by
  exact ⟨augOnce_no_occ, rfl, rfl⟩

/-- Witness for C7_amended: no occurrence of the period in abc. -/
theorem C7_amended_witness :
    occCount (".".toList) ("abc".toList) = 0 ∧
    augTransform (addAugRule ⟨[], []⟩ (".".toList) ["A".toList] 1)
        ("abc".toList) =
      .ok ("abc".toList, addAugRule ⟨[], []⟩ (".".toList) ["A".toList] 1) := by
  exact ⟨by decide, C7_amended.1 (".".toList) ["A".toList] ("abc".toList) (by decide)⟩

/-- Claim C10: a frequency-1 rule with an empty additions list raises an
uncaught ZeroDivisionError (the addition index is taken modulo the list
length, zero) on any input with at least one occurrence of the punctuation,
and returns the text unchanged when there is no occurrence. -/
theorem C10_empty_additions :
    (∀ (punct text : Str), 1 ≤ occCount punct text →
      augTransform (addAugRule ⟨[], []⟩ punct [] 1) text = .error ()) ∧
    (∀ (punct text : Str), occCount punct text = 0 →
      augTransform (addAugRule ⟨[], []⟩ punct [] 1) text =
        .ok (text, addAugRule ⟨[], []⟩ punct [] 1)) := by
  refine ⟨fun punct text h => ?_, fun punct text h => augOnce_no_occ punct [] text h⟩
  have hlen : 2 ≤ (pySplitStr punct text).length := by
    simp only [occCount] at h
    omega
  cases hp : pySplitStr punct text with
  | nil => rw [hp] at hlen; simp at hlen
  | cons p ps =>
    cases ps with
    | nil => rw [hp] at hlen; simp at hlen
    | cons q rest =>
      have herr : augAlways punct [] (p :: q :: rest) 0 = .error () := by
        simp [augAlways]
      have happ : augApplyRule ⟨punct, [], 1⟩ [] text = .error () := by
        simp only [augApplyRule, hp, beq_self_eq_true, if_true, herr]
      simp [augTransform, augGo, addAugRule, happ]

/-- Witness for C10_empty_additions: one occurrence of the period in a. b. -/
theorem C10_empty_additions_witness :
    1 ≤ occCount (".".toList) ("a. b".toList) ∧
    augTransform (addAugRule ⟨[], []⟩ (".".toList) [] 1) ("a. b".toList) =
      .error () := by
  exact ⟨by decide, C10_empty_additions.1 (".".toList) ("a. b".toList) (by decide)⟩

/-- Claim C8: for every deterministic generator interface (state type,
seeding function and the two draw operations), two freshly constructed
corruption stages with the same percentage and seed produce identical output
on the same input; the output has the input's length; every non-alphanumeric
input character appears unchanged at its position; a non-alphanumeric
character consumes no generator draw (the per-character step returns the
state untouched), so a text of non-alphanumeric characters passes through
verbatim with the generator state unchanged. -/
theorem C8_seeded_corruption :
    ∀ (σ : Type) (randint : σ → Int × σ) (randbelow : σ → Nat × σ)
      (init : Int → σ) (pct seed : Int) (text : Str) (g : σ),
      (∀ t1 t2 : GlitchTransformer σ,
        t1 = glitchNew init pct seed → t2 = glitchNew init pct seed →
        (glitchTransform randint randbelow t1 text).1 =
          (glitchTransform randint randbelow t2 text).1) ∧
      (glitchRun randint randbelow pct text g).1.length = text.length ∧
      (∀ (i : Nat) (c : Char), text[i]? = some c → c.isAlphanum = false →
        ((glitchRun randint randbelow pct text g).1)[i]? = some c) ∧
      (∀ c : Char, c.isAlphanum = false →
        glitchStep randint randbelow pct c g = (c, g)) ∧
      ((∀ c ∈ text, c.isAlphanum = false) →
        glitchRun randint randbelow pct text g = (text, g)) := by
  intro σ randint randbelow init pct seed text g
  refine ⟨fun t1 t2 h1 h2 => by rw [h1, h2],
    glitchRun_length randint randbelow pct text g,
    fun i c hc hna => glitchRun_pos randint randbelow pct text g i c hc hna,
    fun c h => glitchStep_nonalnum randint randbelow pct c g h,
    fun h => glitchRun_nonalnum randint randbelow pct text g h⟩

/-- Witness for C8_seeded_corruption: a concrete counter-state generator, a
text with a non-alphanumeric character at position 1. -/
theorem C8_seeded_corruption_witness :
    (("a-b".toList : Str)[1]? = some '-') ∧
    ((glitchRun (fun g : Int => (1, g + 1)) (fun g : Int => (0, g + 1)) 50
        ("a-b".toList) 0).1)[1]? = some '-' := by
  exact ⟨by decide,
    (C8_seeded_corruption Int (fun g => (1, g + 1)) (fun g => (0, g + 1))
      (fun s => s) 50 7 ("a-b".toList) 0).2.2.1 1 '-' (by decide) (by decide)⟩

/-- Claim C9 counterexample: a configuration whose substitutions table is
present but empty still adds a stage — the resulting pipeline holds one
stage (a Substitution instance with zero compiled rules), not zero stages as
the claim requires. -/
theorem C9_counterexample :
    from_dict ⟨some [], none, none, none, none, none, none, none, none, none⟩ =
      ⟨[Stage.ruleStage []], [], []⟩ ∧
    ([Stage.ruleStage []] : List Stage) ≠ [] := by
  exact ⟨rfl, by decide⟩

/-- Claim C9 corrected: from_dict adds exactly one stage per present
recognized stage key, in the fixed order — a key that is absent contributes
no stage (and absence is not an error), while a key that is present with an
empty rule table still contributes a (no-op) stage instance. -/
theorem C9_stage_omission :
    (∀ cfg : Config, (from_dict cfg).transformers.length = presentCount cfg) ∧
    from_dict emptyConfig = ⟨[], [], []⟩ ∧
    from_dict ⟨some [], none, none, none, none, none, none, none, none, none⟩ =
      ⟨[Stage.ruleStage []], [], []⟩ := by
  refine ⟨fun cfg => ?_, rfl, rfl⟩
  obtain ⟨s, c, sf, pf, sa, g, wb, pc, pt, st⟩ := cfg
  cases s <;> cases c <;> cases sf <;> cases pf <;> cases sa <;> cases g <;> rfl
